import Mathlib

/-!
# Verification of the thread-pool file server (ETS-Pemrograman-jaringan)

Shallow embedding of the connection-handling and request-dispatch subsystem of
`file_server_thread_pool.py`, together with the client-side response decoding of
`file_client_cli.py`.  Python byte strings are modelled as `List Nat` (each
entry a byte value), Python text strings as `List Char` (`PyStr`).

The module `file_interface.py` (class `FileInterface`) is imported by the
server but is not part of the repository sources available here; where its
behaviour decides a claim it is modelled from the specification and clearly
marked as such in doc comments.
-/

/-- Python text strings are modelled as lists of characters. -/
abbrev PyStr := List Char

/-- Boolean test that the first list is an initial segment of the second
(used to model Python's `bytes.find` scanning). -/
def leadsWith [DecidableEq α] : List α → List α → Bool
  | [], _ => true
  | _ :: _, [] => false
  | a :: as, b :: bs => a = b && leadsWith as bs

/-- `findSub nd l` is the index of the first occurrence of `nd` as a
contiguous sublist of `l`, mirroring Python's `bytes.find` / `str.find`
(`some i` instead of `i`, `none` instead of `-1`). -/
def findSub [DecidableEq α] (nd : List α) : List α → Option Nat
  | [] => if nd = [] then some 0 else none
  | x :: xs => if leadsWith nd (x :: xs) then some 0 else (findSub nd xs).map (· + 1)

/-- Split a list at the first occurrence of `sep`, mirroring one step of
Python's `str.split(sep, maxsplit)`: `some (before, after)` when `sep`
occurs, `none` otherwise. -/
def splitOnce [DecidableEq α] (sep : α) : List α → Option (List α × List α)
  | [] => none
  | c :: cs =>
    if c = sep then some ([], cs)
    else (splitOnce sep cs).map (fun p => (c :: p.1, p.2))

/-- Python's `header.split(' ', 2)` (file_server_thread_pool.py line 49):
split on the first two spaces into at most three fields. -/
def pySplit2 (s : PyStr) : List PyStr :=
  match splitOnce ' ' s with
  | none => [s]
  | some (a, r) =>
    match splitOnce ' ' r with
    | none => [a, r]
    | some (b, r2) => [a, b, r2]

/-- Python's `str.upper` (line 50).  The commands compared against are ASCII,
for which Python's `upper` agrees with per-character `Char.toUpper`. -/
def pyUpper (s : PyStr) : PyStr := s.map Char.toUpper

/-- Concatenation of a list of lists (the byte stream delivered in chunks). -/
def concatAll : List (List α) → List α
  | [] => []
  | x :: xs => x ++ concatAll xs

/-- Whether a byte is a UTF-8 continuation byte `0x80..0xBF`. -/
def isCont (b : Nat) : Bool := 128 ≤ b && b ≤ 191

/-- Decode one UTF-8 code point: the leading byte and its continuation
bytes, with RFC 3629 ranges (overlong forms and surrogates rejected), as
Python's strict `bytes.decode('utf-8')` does. -/
def utf8DecodeOne (l : List Nat) : Option (Char × List Nat) :=
  match l with
  | [] => none
  | b :: rest =>
    if b < 128 then some (Char.ofNat b, rest)
    else if 194 ≤ b && b ≤ 223 then
      match rest with
      | b2 :: rest2 =>
        if isCont b2 then some (Char.ofNat ((b - 192) * 64 + (b2 - 128)), rest2) else none
      | [] => none
    else if 224 ≤ b && b ≤ 239 then
      match rest with
      | b2 :: b3 :: rest2 =>
        let lo2 : Nat := if b = 224 then 160 else 128
        let hi2 : Nat := if b = 237 then 159 else 191
        if (lo2 ≤ b2 && b2 ≤ hi2) && isCont b3 then
          some (Char.ofNat (((b - 224) * 64 + (b2 - 128)) * 64 + (b3 - 128)), rest2)
        else none
      | _ => none
    else if 240 ≤ b && b ≤ 244 then
      match rest with
      | b2 :: b3 :: b4 :: rest2 =>
        let lo2 : Nat := if b = 240 then 144 else 128
        let hi2 : Nat := if b = 244 then 143 else 191
        if ((lo2 ≤ b2 && b2 ≤ hi2) && isCont b3) && isCont b4 then
          some (Char.ofNat ((((b - 240) * 64 + (b2 - 128)) * 64 + (b3 - 128)) * 64 + (b4 - 128)),
            rest2)
        else none
      | _ => none
    else none

/-- Fueled decoding loop; each code point consumes at least one byte, so
fuel equal to the byte count always suffices (see `utf8Decode`). -/
def utf8DecodeF : Nat → List Nat → Option (List Char)
  | _, [] => some []
  | fuel + 1, b :: rest =>
    match utf8DecodeOne (b :: rest) with
    | some (c, rest2) => (utf8DecodeF fuel rest2).map (fun cs => c :: cs)
    | none => none
  | 0, _ :: _ => none

/-- Strict UTF-8 decoding of a byte list, mirroring Python's
`bytes.decode('utf-8')`: `none` models a raised `UnicodeDecodeError`. -/
def utf8Decode (l : List Nat) : Option (List Char) := utf8DecodeF l.length l

/-- Python's `str.encode('utf-8')` restricted to ASCII text (every string the
verified scenarios transmit is ASCII; for ASCII, UTF-8 is the identity byte
per character). -/
def encodeAscii (s : PyStr) : List Nat := s.map Char.toNat

/-- The wire delimiter `b"\r\n\r\n"` as bytes. -/
def delimBytes : List Nat := [13, 10, 13, 10]

/-- The wire delimiter `"\r\n\r\n"` as text (client side, after decoding). -/
def delimStr : PyStr := ['\r', '\n', '\r', '\n']

-- ### Base64 (Python `base64.b64encode` / `base64.b64decode`)

/-- The standard base64 alphabet. -/
def b64Alphabet : List Char :=
  "ABCDEFGHIJKLMNOPQRSTUVWXYZabcdefghijklmnopqrstuvwxyz0123456789+/".toList

/-- Character for a 6-bit group. -/
def b64Char (n : Nat) : Char := b64Alphabet.getD n 'A'

/-- Value of an alphabet character. -/
def b64Val (c : Char) : Option Nat := b64Alphabet.findIdx? (· = c)

/-- Python's `base64.b64encode` over byte lists (output as text, since the
code always immediately decodes it to ASCII text). -/
def b64encode : List Nat → PyStr
  | [] => []
  | [a] => [b64Char (a / 4), b64Char (a % 4 * 16), '=', '=']
  | [a, b] => [b64Char (a / 4), b64Char (a % 4 * 16 + b / 16), b64Char (b % 16 * 4), '=']
  | a :: b :: c :: rest =>
    b64Char (a / 4) :: b64Char (a % 4 * 16 + b / 16) ::
      b64Char (b % 16 * 4 + c / 64) :: b64Char (c % 64) :: b64encode rest

/-- Python's `base64.b64decode` restricted to well-formed input (length a
multiple of 4, padding only at the end).  Python's default lenient discarding
of non-alphabet bytes is not modelled; on every encoder output and on the
empty string the two agree. -/
def b64decode : PyStr → Option (List Nat)
  | [] => some []
  | c1 :: c2 :: c3 :: c4 :: rest => do
    let x ← b64Val c1
    let y ← b64Val c2
    if c3 = '=' then
      if c4 = '=' then
        if rest = [] then some [x * 4 + y / 16] else none
      else none
    else do
      let z ← b64Val c3
      if c4 = '=' then
        if rest = [] then some [x * 4 + y / 16, y % 16 * 16 + z / 4] else none
      else do
        let w ← b64Val c4
        let tl ← b64decode rest
        pure ((x * 4 + y / 16) :: (y % 16 * 16 + z / 4) :: (z % 4 * 64 + w) :: tl)
  | _ => none

-- ### JSON (the subset produced by `json.dumps(hasil_dict)` and read back by
-- the client's `json.loads`)

/-- JSON values occurring in the server's response dictionaries: every value
is either a string or a list of strings (the `LIST` reply). -/
inductive JVal where
  | jstr (s : PyStr)
  | jarr (xs : List PyStr)
deriving DecidableEq

/-- A Python dict with string keys as serialized by `json.dumps`
(insertion-ordered association list). -/
abbrev JDict := List (PyStr × JVal)

/-- Lowercase hex digit, as emitted by `json.dumps` in `\u00xx` escapes. -/
def hexDig (n : Nat) : Char :=
  if n < 10 then Char.ofNat (48 + n) else Char.ofNat (87 + n)

/-- Value of a hex digit (as accepted by `json.loads`). -/
def hexVal (c : Char) : Option Nat :=
  if 48 ≤ c.toNat && c.toNat ≤ 57 then some (c.toNat - 48)
  else if 97 ≤ c.toNat && c.toNat ≤ 102 then some (c.toNat - 87)
  else if 65 ≤ c.toNat && c.toNat ≤ 70 then some (c.toNat - 55)
  else none

/-- `json.dumps` escaping of one character inside a string literal.  Control
characters below 0x20 are escaped (short escapes for the common ones, `\u00xx`
otherwise); other characters are emitted literally (as `json.dumps` with
`ensure_ascii=False` does; the default `ensure_ascii=True` additionally
escapes non-ASCII characters, which does not change what `json.loads`
recovers). -/
def escChar (c : Char) : List Char :=
  if c = '"' then ['\\', '"']
  else if c = '\\' then ['\\', '\\']
  else if c = '\n' then ['\\', 'n']
  else if c = '\r' then ['\\', 'r']
  else if c = '\t' then ['\\', 't']
  else if c = Char.ofNat 8 then ['\\', 'b']
  else if c = Char.ofNat 12 then ['\\', 'f']
  else if c.toNat < 32 then ['\\', 'u', '0', '0', hexDig (c.toNat / 16), hexDig (c.toNat % 16)]
  else [c]

/-- Escape a whole string body. -/
def escStr : List Char → List Char
  | [] => []
  | c :: cs => escChar c ++ escStr cs

/-- A JSON string literal: quote, escaped body, quote. -/
def encodeJString (s : PyStr) : List Char := '"' :: escStr s ++ ['"']

/-- Short escapes accepted after a backslash by `json.loads`. -/
def unescChar (e : Char) : Option Char :=
  if e = '"' then some '"'
  else if e = '\\' then some '\\'
  else if e = '/' then some '/'
  else if e = 'n' then some '\n'
  else if e = 'r' then some '\r'
  else if e = 't' then some '\t'
  else if e = 'b' then some (Char.ofNat 8)
  else if e = 'f' then some (Char.ofNat 12)
  else none

/-- Parse a JSON string body up to and including the closing quote, returning
the decoded body and the remaining input (the part of `json.loads` that reads
string literals; raw control characters are rejected, as in strict mode). -/
def unescStr : List Char → Option (List Char × List Char)
  | [] => none
  | c :: rest =>
    if c = '"' then some ([], rest)
    else if c = '\\' then
      match rest with
      | [] => none
      | e :: rest2 =>
        if e = 'u' then
          match rest2 with
          | h1 :: h2 :: h3 :: h4 :: rest3 =>
            match hexVal h1, hexVal h2, hexVal h3, hexVal h4 with
            | some a, some b, some c3, some d =>
              (unescStr rest3).map
                (fun p => (Char.ofNat (((a * 16 + b) * 16 + c3) * 16 + d) :: p.1, p.2))
            | _, _, _, _ => none
          | _ => none
        else
          match unescChar e with
          | some ec => (unescStr rest2).map (fun p => (ec :: p.1, p.2))
          | none => none
    else if c.toNat < 32 then none
    else (unescStr rest).map (fun p => (c :: p.1, p.2))

/-- Serialize one JSON value (`json.dumps` with its default separators
`', '` and `': '`). -/
def dumpVal : JVal → List Char
  | JVal.jstr s => encodeJString s
  | JVal.jarr [] => ['[', ']']
  | JVal.jarr (x :: xs) =>
    '[' :: encodeJString x ++
      concatAll (xs.map (fun y => ',' :: ' ' :: encodeJString y)) ++ [']']

/-- Serialize one `"key": value` entry. -/
def dumpEntry (k : PyStr) (v : JVal) : List Char :=
  encodeJString k ++ ':' :: ' ' :: dumpVal v

/-- `json.dumps` of a response dictionary. -/
def jsonDumps : JDict → List Char
  | [] => [Char.ofNat 123, Char.ofNat 125]
  | (k, v) :: rest =>
    Char.ofNat 123 :: dumpEntry k v ++
      concatAll (rest.map (fun kv => ',' :: ' ' :: dumpEntry kv.1 kv.2)) ++ [Char.ofNat 125]

/-- Parse the continuation of a JSON array of strings after the first
element: either `]` or repeated `, "elem"` (the separators `json.dumps`
emits).  The fuel argument is only a termination device: every recursive
step consumes one array element (at least three characters), so fuel equal
to the input length always suffices, and the wrappers below pass exactly
that. -/
def parseArrRestF : Nat → List Char → Option (List PyStr × List Char)
  | _, ']' :: rest => some ([], rest)
  | fuel + 1, ',' :: ' ' :: '"' :: rest =>
    match unescStr rest with
    | some (s, r1) =>
      match parseArrRestF fuel r1 with
      | some (xs, r2) => some (s :: xs, r2)
      | none => none
    | none => none
  | _, _ => none

/-- Parse one JSON value of the response grammar (a string literal or an
array of strings). -/
def parseValF (fuel : Nat) (l : List Char) : Option (JVal × List Char) :=
  match l with
  | '"' :: rest => (unescStr rest).map (fun p => (JVal.jstr p.1, p.2))
  | '[' :: ']' :: rest => some (JVal.jarr [], rest)
  | '[' :: '"' :: rest =>
    match unescStr rest with
    | some (s, r1) =>
      match parseArrRestF fuel r1 with
      | some (xs, r2) => some (JVal.jarr (s :: xs), r2)
      | none => none
    | none => none
  | _ => none

/-- Parse the continuation of a JSON object after the first entry: either
`}` or repeated `, "key": value` (again with `json.dumps` separators; the
fuel plays the same role as in `parseArrRestF`). -/
def parseObjRestF : Nat → List Char → Option (JDict × List Char)
  | fuel, c :: rest =>
    if c = Char.ofNat 125 then some ([], rest)
    else if c = ',' then
      match fuel, rest with
      | fuel2 + 1, ' ' :: '"' :: rest2 =>
        match unescStr rest2 with
        | some (k, r1) =>
          match r1 with
          | ':' :: ' ' :: r2 =>
            match parseValF fuel2 r2 with
            | some (v, r3) =>
              match parseObjRestF fuel2 r3 with
              | some (kvs, r4) => some ((k, v) :: kvs, r4)
              | none => none
            | none => none
          | _ => none
        | none => none
      | _, _ => none
    else none
  | _, [] => none

/-- The client's `json.loads(json_part)` restricted to the grammar
`json.dumps` emits for the server's response dictionaries: a whole-input
parse of `{"key": value, ...}` with string or string-array values. -/
def jsonLoads (s : PyStr) : Option JDict :=
  match s with
  | c :: rest =>
    if c = Char.ofNat 123 then
      match rest with
      | c2 :: rest2 =>
        if c2 = Char.ofNat 125 then (if rest2 = [] then some [] else none)
        else if c2 = '"' then
          match unescStr rest2 with
          | some (k, r1) =>
            match r1 with
            | ':' :: ' ' :: r2 =>
              match parseValF r2.length r2 with
              | some (v, r3) =>
                match parseObjRestF r3.length r3 with
                | some (kvs, r4) => if r4 = [] then some ((k, v) :: kvs) else none
                | none => none
              | none => none
            | _ => none
          | none => none
        else none
      | [] => none
    else none
  | [] => none

-- ### JSON round-trip lemmas

/-- Fuel sufficient to parse a value (number of array elements after the
first). -/
def vFuel : JVal → Nat
  | JVal.jstr _ => 0
  | JVal.jarr [] => 0
  | JVal.jarr (_ :: xs) => xs.length

/-- Fuel sufficient to parse the remaining entries of an object. -/
def jdictFuel : JDict → Nat
  | [] => 0
  | (_, v) :: rest => 1 + vFuel v + jdictFuel rest

/-- One observable event on the connection's receive side: a `recv` result
(the empty chunk models EOF, i.e. `recv` returning `b""`), or a raised
`socket.timeout`. -/
inductive RecvEvent where
  | data (chunk : List Nat)
  | timeout
deriving DecidableEq

/-- Result of the framing loop (lines 30-42): EOF before a delimiter, the
accumulated buffer with the index of the first delimiter occurrence, a
socket timeout, or `blocked` when the modelled event trace ends before any
of those (the real loop would still be waiting in `recv`). -/
inductive FrameResult where
  | eof
  | frame (buf : List Nat) (sep : Nat)
  | timedOut
  | blocked
deriving DecidableEq

/-- The receive loop of `process_client_request` (lines 30-42): accumulate
chunks until the buffer contains `b"\r\n\r\n"`; an empty `recv` result is a
disconnect; `socket.timeout` propagates to the handler's `except`. -/
def recvLoop (buffer : List Nat) : List RecvEvent → FrameResult
  | [] => FrameResult.blocked
  | RecvEvent.timeout :: _ => FrameResult.timedOut
  | RecvEvent.data d :: rest =>
    if d = [] then FrameResult.eof
    else
      match findSub delimBytes (buffer ++ d) with
      | some i => FrameResult.frame (buffer ++ d) i
      | none => recvLoop (buffer ++ d) rest

/-- Header bytes extracted from a frame (line 40: `full_data_buffer[:separator_index]`). -/
def frameHeaderBytes (buf : List Nat) (sep : Nat) : List Nat := buf.take sep

/-- Body bytes extracted from a frame (line 41:
`full_data_buffer[separator_index + 4:]`). -/
def frameBodyBytes (buf : List Nat) (sep : Nat) : List Nat := buf.drop (sep + 4)

/-- A store operation the handler actually invoked on the `FileInterface`
object. -/
inductive Effect where
  | listOp (params : List PyStr)
  | getOp (params : List PyStr)
  | uploadOp (filename : PyStr) (contentB64 : PyStr)
  | deleteOp (params : List PyStr)
deriving DecidableEq

/-- Interface of the `FileInterface` collaborator: each operation receives
the store state and returns the response dictionary (or a raised exception,
modelled as `Except.error` with the exception text) together with the
post-call state. -/
structure FileIntf (σ : Type) where
  listF : σ → List PyStr → Except PyStr JDict × σ
  getF : σ → List PyStr → Except PyStr JDict × σ
  uploadF : σ → PyStr → PyStr → Except PyStr JDict × σ
  deleteF : σ → List PyStr → Except PyStr JDict × σ

/-- `dict(status='ERROR', data=msg)` as the server builds it. -/
def errDict (msg : PyStr) : JDict :=
  [("status".toList, JVal.jstr "ERROR".toList), ("data".toList, JVal.jstr msg)]

/-- Command dispatch of `process_client_request` (lines 48-86): split the
header on the first two spaces, uppercase the command, and branch.  Store
exceptions are caught (lines 75-77 for UPLOAD, lines 91-93 otherwise) and
turned into ERROR dictionaries. -/
def dispatchCommand (intf : FileIntf σ) (st : σ) (header : PyStr) (body : List Nat) :
    JDict × σ × List Effect :=
  let parts := pySplit2 header
  let command := pyUpper (parts.headD [])
  let params := parts.tail
  if command = "UPLOAD".toList then
    match params with
    | [] => (errDict "Filename missing for UPLOAD.".toList, st, [])
    | filename :: _ =>
      match utf8Decode body with
      | none => (errDict "Failed to decode file content.".toList, st, [])
      | some contentB64 =>
        match intf.uploadF st filename contentB64 with
        | (Except.ok d, st2) => (d, st2, [Effect.uploadOp filename contentB64])
        | (Except.error e, st2) =>
          (errDict ("Server internal error during UPLOAD: ".toList ++ e), st2,
            [Effect.uploadOp filename contentB64])
  else if command = "LIST".toList then
    match intf.listF st params with
    | (Except.ok d, st2) => (d, st2, [Effect.listOp params])
    | (Except.error e, st2) =>
      (errDict ("Server internal error: ".toList ++ e), st2, [Effect.listOp params])
  else if command = "GET".toList then
    match intf.getF st params with
    | (Except.ok d, st2) => (d, st2, [Effect.getOp params])
    | (Except.error e, st2) =>
      (errDict ("Server internal error: ".toList ++ e), st2, [Effect.getOp params])
  else if command = "DELETE".toList then
    match intf.deleteF st params with
    | (Except.ok d, st2) => (d, st2, [Effect.deleteOp params])
    | (Except.error e, st2) =>
      (errDict ("Server internal error: ".toList ++ e), st2, [Effect.deleteOp params])
  else
    (errDict ("Unknown command: ".toList ++ command), st, [])

/-- Observable outcome of one `process_client_request` call: the response
dictionary delivered to the client (if any), whether `connection.close()`
(line 101) was reached, and whether an exception escaped the handler. -/
structure Outcome where
  sent : Option JDict
  closed : Bool
  raised : Bool
deriving DecidableEq

/-- The `finally` block of lines 94-101 when `hasil_dict` was assigned:
serialize, attempt `sendall` (its failure is caught, line 98), close. -/
def finishSend (d : JDict) (sendOk : Bool) : Outcome :=
  { sent := if sendOk then some d else none, closed := true, raised := false }

/-- Model of the exception message of a `UnicodeDecodeError` raised by
`header_str = ...decode('utf-8')` on line 40 and caught by `except
Exception` on line 91 (the exact text is irrelevant to every claim). -/
def unicodeDecodeErrText : PyStr :=
  "utf-8 codec cannot decode byte".toList

/-- `process_client_request` (lines 17-101) over a trace of receive events.
`sendOk` models whether the `sendall` of line 97 succeeds; the result is
`none` only when the modelled trace ends while the loop is still waiting.
On the two early-`return` paths (lines 32-34 and 44-46) the `finally` block
evaluates `json.dumps(hasil_dict)` with `hasil_dict` still unassigned, so
the handler raises `UnboundLocalError` before `connection.close()`:
modelled as `sent = none, closed = false, raised = true`. -/
def processClientRequest (intf : FileIntf σ) (st : σ) (events : List RecvEvent)
    (sendOk : Bool) : Option (Outcome × σ × List Effect) :=
  match recvLoop [] events with
  | FrameResult.blocked => none
  | FrameResult.eof => some ({ sent := none, closed := false, raised := true }, st, [])
  | FrameResult.timedOut =>
    some (finishSend (errDict "Server receive timeout.".toList) sendOk, st, [])
  | FrameResult.frame buf i =>
    match utf8Decode (frameHeaderBytes buf i) with
    | none =>
      some (finishSend (errDict ("Server internal error: ".toList ++ unicodeDecodeErrText))
        sendOk, st, [])
    | some header =>
      if header = [] then
        some ({ sent := none, closed := false, raised := true }, st, [])
      else
        let r := dispatchCommand intf st header (frameBodyBytes buf i)
        some (finishSend r.1 sendOk, r.2.1, r.2.2)

/-- The per-connection idle timeout set on line 27 (`connection.settimeout(120)`). -/
def connectionTimeoutSeconds : Nat := 120

-- ### Spec-modelled FileInterface

/-- Occurrence test for a contiguous subsequence. -/
def containsSeq [DecidableEq α] (nd l : List α) : Bool := (findSub nd l).isSome

/-- Modelled from the spec: `file_interface.py` is imported by the server
(line 15) but absent from the available sources.  Spec section 4.2 requires
filenames to be sanitized, rejecting path separators and `..` sequences. -/
def sanitizeOk (name : PyStr) : Bool :=
  !(name.contains '/') && !(name.contains '\\') && !(containsSeq "..".toList name)

/-- Modelled from the spec: the flat file store owned by `FileInterface`,
one root directory mapping filenames to byte contents. -/
abbrev Store := List (PyStr × List Nat)

def storeFind (name : PyStr) : Store → Option (List Nat)
  | [] => none
  | (n, bs) :: rest => if n = name then some bs else storeFind name rest

def storeInsert (name : PyStr) (bs : List Nat) : Store → Store
  | [] => [(name, bs)]
  | (n, b0) :: rest =>
    if n = name then (name, bs) :: rest else (n, b0) :: storeInsert name bs rest

def storeRemove (name : PyStr) : Store → Store
  | [] => []
  | (n, b0) :: rest => if n = name then rest else (n, b0) :: storeRemove name rest

/-- Modelled from the spec: `FileInterface.list` — "list() -> ordered
sequence of filenames", returned as `status OK, data = filenames`. -/
def specList (st : Store) (_params : List PyStr) : Except PyStr JDict × Store :=
  (Except.ok [("status".toList, JVal.jstr "OK".toList),
    ("data".toList, JVal.jarr (st.map Prod.fst))], st)

/-- Modelled from the spec: `FileInterface.get` — read the named file and
return `OK, data_namafile=name, data_file=base64(bytes)`; a missing file or
a name rejected by sanitization yields `ERROR, data="file not found"`. -/
def specGet (st : Store) (params : List PyStr) : Except PyStr JDict × Store :=
  match params with
  | [] => (Except.ok (errDict "file not found".toList), st)
  | name :: _ =>
    if sanitizeOk name then
      match storeFind name st with
      | some bs =>
        (Except.ok [("status".toList, JVal.jstr "OK".toList),
          ("data_namafile".toList, JVal.jstr name),
          ("data_file".toList, JVal.jstr (b64encode bs))], st)
      | none => (Except.ok (errDict "file not found".toList), st)
    else (Except.ok (errDict "file not found".toList), st)

/-- Modelled from the spec: `FileInterface.upload` — base64-decode the body
and write with create-or-truncate semantics; sanitization failures and
undecodable base64 yield `ERROR`. -/
def specUpload (st : Store) (name : PyStr) (contentB64 : PyStr) :
    Except PyStr JDict × Store :=
  if sanitizeOk name then
    match b64decode contentB64 with
    | some bs =>
      (Except.ok [("status".toList, JVal.jstr "OK".toList),
        ("data".toList, JVal.jstr "upload success".toList)], storeInsert name bs st)
    | none => (Except.ok (errDict "invalid base64 content".toList), st)
  else (Except.ok (errDict "invalid filename".toList), st)

/-- Modelled from the spec: `FileInterface.delete` — remove the named file;
absent files and rejected names yield `ERROR, data="file not found"`. -/
def specDelete (st : Store) (params : List PyStr) : Except PyStr JDict × Store :=
  match params with
  | [] => (Except.ok (errDict "file not found".toList), st)
  | name :: _ =>
    if sanitizeOk name then
      match storeFind name st with
      | some _ =>
        (Except.ok [("status".toList, JVal.jstr "OK".toList),
          ("data".toList, JVal.jstr "delete success".toList)], storeRemove name st)
      | none => (Except.ok (errDict "file not found".toList), st)
    else (Except.ok (errDict "file not found".toList), st)

/-- The spec-modelled `FileInterface` bundle. -/
def specIntf : FileIntf Store :=
  { listF := specList, getF := specGet,
    uploadF := specUpload, deleteF := specDelete }

-- ### The accept loop and shutdown (ServerThreadPool.run, lines 112-143)

/-- What one `accept()` call observes in one loop iteration. -/
inductive AcceptRes where
  | conn (id : Nat)
  | timeoutA
  | errA
deriving DecidableEq

/-- One iteration of the accept loop: the value of `_shutdown_event` at the
`while` test (line 119), the `accept()` outcome (lines 121-135), and the
value of `_shutdown_event` at the inner check (line 123). -/
structure LoopStep where
  flagAtLoop : Bool
  res : AcceptRes
  flagAtSubmit : Bool
deriving DecidableEq

/-- Observable lifecycle events of `ServerThreadPool.run`. -/
inductive SEvent where
  | accepted (id : Nat)
  | submitted (id : Nat)
  | refusedClosed (id : Nat)
  | closeListen
  | waitTasks
deriving DecidableEq

/-- The accept loop of `ServerThreadPool.run` (lines 119-135): exit when the
shutdown flag is set at the `while` test; on `socket.timeout` continue; on
another exception break; on a connection, submit it to the executor unless
the flag is now set, in which case close it immediately (lines 123-127). -/
def acceptLoop : List LoopStep → List SEvent
  | [] => []
  | s :: rest =>
    if s.flagAtLoop then []
    else
      match s.res with
      | AcceptRes.conn id =>
        SEvent.accepted id ::
          (if s.flagAtSubmit then SEvent.refusedClosed id :: acceptLoop rest
           else SEvent.submitted id :: acceptLoop rest)
      | AcceptRes.timeoutA => acceptLoop rest
      | AcceptRes.errA => []

/-- `ServerThreadPool.run`: the accept loop followed by the `finally` block
of lines 139-143, which closes the listening socket (line 141) and then
shuts the executor down waiting for tasks (line 142). -/
def serverRun (steps : List LoopStep) : List SEvent :=
  acceptLoop steps ++ [SEvent.closeListen, SEvent.waitTasks]

/-- Whether a trace completes all worker tasks before closing the listening
socket (the ordering the specification claims). -/
def waitBeforeClose (t : List SEvent) : Bool :=
  match t.findIdx? (· = SEvent.waitTasks), t.findIdx? (· = SEvent.closeListen) with
  | some i, some j => i < j
  | _, _ => false

/-- `data_received.split("\r\n\r\n")[0]` (file_client_cli.py line 51): the
part before the first delimiter occurrence (the whole string when the
delimiter is absent). -/
def pySplitFirst (delim s : PyStr) : PyStr :=
  match findSub delim s with
  | some i => s.take i
  | none => s

/-- Server-side response serialization (line 95):
`json.dumps(hasil_dict) + "\r\n\r\n"`. -/
def serializeResponse (d : JDict) : PyStr := jsonDumps d ++ delimStr

/-- Client-side response parsing (file_client_cli.py lines 51-52): split on
the first `"\r\n\r\n"` and JSON-decode the part before it. -/
def clientParse (s : PyStr) : Option JDict := jsonLoads (pySplitFirst delimStr s)

-- ### Supporting lemmas on searching and splitting

/-- Reading back a hex digit recovers its value. -/
theorem hexVal_hexDig : ∀ n < 16, hexVal (hexDig n) = some n := by decide

/-- Parsing a string literal body produced by `escStr` recovers the original
string and leaves the trailing input untouched. -/
theorem unescStr_escStr : ∀ s rest, unescStr (escStr s ++ '"' :: rest) = some (s, rest) := by
  intro s
  induction s with
  | nil =>
    intro rest
    rw [escStr, List.nil_append, unescStr.eq_def]
    simp
  | cons c cs ih =>
    intro rest
    rw [escStr]
    by_cases h1 : c = '"'
    · subst h1
      simp only [escChar, if_pos rfl, List.cons_append, List.nil_append]
      rw [unescStr.eq_def]
      simp [unescChar, ih]
    · by_cases h2 : c = '\\'
      · subst h2
        simp [escChar]
        rw [unescStr.eq_def]
        simp [unescChar, ih]
      · by_cases h3 : c = '\n'
        · subst h3
          simp [escChar]
          rw [unescStr.eq_def]
          simp [unescChar, ih]
        · by_cases h4 : c = '\r'
          · subst h4
            simp [escChar]
            rw [unescStr.eq_def]
            simp [unescChar, ih]
          · by_cases h5 : c = '\t'
            · subst h5
              simp [escChar]
              rw [unescStr.eq_def]
              simp [unescChar, ih]
            · by_cases h6 : c = Char.ofNat 8
              · subst h6
                simp [escChar]
                rw [unescStr.eq_def]
                simp [unescChar, ih]
              · by_cases h7 : c = Char.ofNat 12
                · subst h7
                  simp [escChar]
                  rw [unescStr.eq_def]
                  simp [unescChar, ih]
                · by_cases h8 : c.toNat < 32
                  · have hhi : hexVal (hexDig (c.toNat / 16)) = some (c.toNat / 16) :=
                      hexVal_hexDig _ (by omega)
                    have hlo : hexVal (hexDig (c.toNat % 16)) = some (c.toNat % 16) :=
                      hexVal_hexDig _ (by omega)
                    have hv : hexVal '0' = some 0 := by decide
                    simp only [escChar, h1, h2, h3, h4, h5, h6, h7, h8, if_pos, if_neg,
                      if_true, if_false, List.cons_append, List.nil_append]
                    rw [unescStr.eq_def]
                    simp [hhi, hlo, hv, ih]
                    convert Char.ofNat_toNat c using 2
                    omega
                  · simp only [escChar, h1, h2, h3, h4, h5, h6, h7, h8, if_neg, if_false,
                      List.cons_append, List.nil_append]
                    rw [unescStr.eq_def]
                    simp [h1, h2, h8, ih]

/-- Exposing the quote structure of an encoded string literal. -/
theorem encodeJString_append (s : PyStr) (rest : List Char) :
    encodeJString s ++ rest = '"' :: (escStr s ++ '"' :: rest) := by
  simp [encodeJString]

/-- With enough fuel, parsing the encoded tail of a string array recovers
the elements. -/
theorem parseArrRestF_adequate :
    ∀ (xs : List PyStr) (fuel : Nat) (rest : List Char), xs.length ≤ fuel →
      parseArrRestF fuel
          (concatAll (xs.map fun y => ',' :: ' ' :: encodeJString y) ++ ']' :: rest)
        = some (xs, rest) := by
  intro xs
  induction xs with
  | nil =>
    intro fuel rest _
    simp only [List.map_nil, concatAll, List.nil_append]
    rw [parseArrRestF.eq_def]
    split <;> simp_all
  | cons y ys ih =>
    intro fuel rest h
    match fuel with
    | f + 1 =>
      simp only [List.map_cons, concatAll, List.cons_append, List.append_assoc,
        encodeJString_append]
      rw [parseArrRestF, unescStr_escStr]
      simp [ih f rest (by simp at h; omega)]

/-- With enough fuel, parsing a dumped value recovers it. -/
theorem parseValF_adequate :
    ∀ (v : JVal) (fuel : Nat) (rest : List Char), vFuel v ≤ fuel →
      parseValF fuel (dumpVal v ++ rest) = some (v, rest) := by
  intro v fuel rest h
  match v with
  | JVal.jstr s =>
    rw [dumpVal, encodeJString_append, parseValF]
    simp [unescStr_escStr]
  | JVal.jarr [] =>
    rw [dumpVal]
    simp [parseValF]
  | JVal.jarr (x :: xs) =>
    rw [dumpVal]
    simp only [List.cons_append, List.append_assoc, encodeJString_append]
    rw [parseValF, unescStr_escStr]
    have hfuel : xs.length ≤ fuel := by simpa [vFuel] using h
    simp [parseArrRestF_adequate xs fuel rest hfuel]

/-- With enough fuel, parsing the encoded tail of an object recovers the
remaining entries. -/
theorem parseObjRestF_adequate :
    ∀ (kvs : JDict) (fuel : Nat) (rest : List Char), jdictFuel kvs ≤ fuel →
      parseObjRestF fuel
          (concatAll (kvs.map fun kv => ',' :: ' ' :: dumpEntry kv.1 kv.2)
            ++ Char.ofNat 125 :: rest)
        = some (kvs, rest) := by
  intro kvs
  induction kvs with
  | nil =>
    intro fuel rest _
    simp only [List.map_nil, concatAll, List.nil_append]
    rw [parseObjRestF.eq_def]
    simp
  | cons kv kvs2 ih =>
    intro fuel rest h
    obtain ⟨k, v⟩ := kv
    rw [jdictFuel] at h
    obtain ⟨f, rfl⟩ : ∃ f, fuel = f + 1 := ⟨fuel - 1, by omega⟩
    have hval := parseValF_adequate v f
      (concatAll (List.map (fun kv => ',' :: ' ' :: dumpEntry kv.1 kv.2) kvs2)
        ++ Char.ofNat 125 :: rest) (by omega)
    have hobj := ih f rest (by omega)
    simp only [List.map_cons, concatAll, List.cons_append, List.append_assoc]
    rw [show dumpEntry k v
          ++ (concatAll (List.map (fun kv => ',' :: ' ' :: dumpEntry kv.1 kv.2) kvs2)
            ++ Char.ofNat 125 :: rest)
        = '"' :: (escStr k ++ '"' :: ':' :: ' ' ::
            (dumpVal v
              ++ (concatAll (List.map (fun kv => ',' :: ' ' :: dumpEntry kv.1 kv.2) kvs2)
                ++ Char.ofNat 125 :: rest)))
      from by simp [dumpEntry, encodeJString_append]]
    rw [parseObjRestF.eq_def]
    simp [unescStr_escStr, hval, hobj]

/-- Each mapped chunk is nonempty, so the concatenation is at least as long
as the element count. -/
theorem concatAll_map_len_ge {α : Type} (g : α → List Char) :
    ∀ xs : List α, (∀ y, 1 ≤ (g y).length) → xs.length ≤ (concatAll (xs.map g)).length := by
  intro xs hg
  induction xs with
  | nil => simp [concatAll]
  | cons y ys ih =>
    simp only [List.map_cons, concatAll, List.length_cons, List.length_append]
    have := hg y
    omega

/-- The fuel a value needs is bounded by the length of its dump. -/
theorem vFuel_le_dumpVal (v : JVal) : vFuel v ≤ (dumpVal v).length := by
  match v with
  | JVal.jstr s => simp [vFuel]
  | JVal.jarr [] => simp [vFuel]
  | JVal.jarr (x :: xs) =>
    have := concatAll_map_len_ge (fun y => ',' :: ' ' :: encodeJString y) xs
      (fun y => by simp)
    simp only [vFuel, dumpVal, List.length_cons, List.length_append]
    omega

/-- The fuel an object tail needs is bounded by the length of its dump. -/
theorem jdictFuel_le_dump :
    ∀ kvs : JDict,
      jdictFuel kvs ≤ (concatAll (kvs.map fun kv => ',' :: ' ' :: dumpEntry kv.1 kv.2)).length := by
  intro kvs
  induction kvs with
  | nil => simp [jdictFuel, concatAll]
  | cons kv kvs2 ih =>
    obtain ⟨k, v⟩ := kv
    have h1 := vFuel_le_dumpVal v
    have h2 : (dumpVal v).length ≤ (dumpEntry k v).length := by
      simp only [dumpEntry, List.length_append, List.length_cons]
      omega
    simp only [jdictFuel, List.map_cons, concatAll, List.length_cons, List.length_append]
    omega

/-- Round-trip of a response dictionary through `json.dumps` and the
client's `json.loads`. -/
theorem jsonLoads_jsonDumps : ∀ d : JDict, jsonLoads (jsonDumps d) = some d := by
  intro d
  match d with
  | [] => decide
  | (k, v) :: kvs =>
    have hval := parseValF_adequate v
      (dumpVal v
        ++ (concatAll (List.map (fun kv => ',' :: ' ' :: dumpEntry kv.1 kv.2) kvs)
          ++ [Char.ofNat 125])).length
      (concatAll (List.map (fun kv => ',' :: ' ' :: dumpEntry kv.1 kv.2) kvs)
        ++ [Char.ofNat 125])
      (by
        have h1 := vFuel_le_dumpVal v
        simp only [List.length_append]
        omega)
    have hobj := parseObjRestF_adequate kvs
      (concatAll (List.map (fun kv => ',' :: ' ' :: dumpEntry kv.1 kv.2) kvs)
        ++ [Char.ofNat 125]).length [] (by
        have h2 := jdictFuel_le_dump kvs
        simp only [List.length_append]
        omega)
    rw [show jsonDumps ((k, v) :: kvs)
        = Char.ofNat 123 :: '"' :: (escStr k ++ '"' :: ':' :: ' ' ::
            (dumpVal v
              ++ (concatAll (List.map (fun kv => ',' :: ' ' :: dumpEntry kv.1 kv.2) kvs)
                ++ [Char.ofNat 125])))
      from by
        rw [jsonDumps]
        simp [dumpEntry, encodeJString_append]]
    simp only [List.length_append, List.length_cons, List.length_nil, Nat.zero_add] at hval hobj
    rw [jsonLoads.eq_def]
    simp [unescStr_escStr, hval, hobj]

-- ### Base64 round-trip lemmas

/-- Reading back an alphabet character recovers its 6-bit value. -/
theorem b64Val_b64Char : ∀ n < 64, b64Val (b64Char n) = some n := by decide

/-- Alphabet characters are never padding. -/
theorem b64Char_ne_pad : ∀ n < 64, b64Char n ≠ '=' := by decide

/-- Decoding an encoded byte list recovers the bytes. -/
theorem b64decode_b64encode :
    ∀ bs : List Nat, (∀ b ∈ bs, b < 256) → b64decode (b64encode bs) = some bs := by
  intro bs
  induction bs using b64encode.induct with
  | case1 => intro _; rfl
  | case2 a =>
    intro h
    have ha := h a (by simp)
    rw [b64encode, b64decode.eq_def]
    simp [b64Val_b64Char _ (show a / 4 < 64 by omega),
      b64Val_b64Char _ (show a % 4 * 16 < 64 by omega)]
    omega
  | case3 a b =>
    intro h
    have ha := h a (by simp)
    have hb := h b (by simp)
    rw [b64encode, b64decode.eq_def]
    simp [b64Val_b64Char _ (show a / 4 < 64 by omega),
      b64Val_b64Char _ (show a % 4 * 16 + b / 16 < 64 by omega),
      b64Val_b64Char _ (show b % 16 * 4 < 64 by omega),
      b64Char_ne_pad _ (show b % 16 * 4 < 64 by omega)]
    omega
  | case4 a b cc rest ih =>
    intro h
    have ha := h a (by simp)
    have hb := h b (by simp)
    have hc := h cc (by simp)
    have htl := ih (fun x hx => h x (by simp [hx]))
    rw [b64encode, b64decode.eq_def]
    simp [b64Val_b64Char _ (show a / 4 < 64 by omega),
      b64Val_b64Char _ (show a % 4 * 16 + b / 16 < 64 by omega),
      b64Val_b64Char _ (show b % 16 * 4 + cc / 64 < 64 by omega),
      b64Val_b64Char _ (show cc % 64 < 64 by omega),
      b64Char_ne_pad _ (show b % 16 * 4 + cc / 64 < 64 by omega),
      b64Char_ne_pad _ (show cc % 64 < 64 by omega), htl]
    refine ⟨by omega, by omega, by omega⟩

-- ### The serialized JSON contains no carriage return, so the client's
-- split on the first delimiter isolates it exactly.

/-- Hex digits are never a carriage return. -/
theorem hexDig_ne_cr : ∀ n < 16, hexDig n ≠ '\r' := by decide

/-- Escaping never emits a carriage return (the CR of `'\r'` itself becomes
the two characters backslash-`r`). -/
theorem cr_notin_escChar (c : Char) : '\r' ∉ escChar c := by
  intro hm
  rw [escChar] at hm
  split_ifs at hm with h1 h2 h3 h4 h5 h6 h7 h8
  · simp at hm
  · simp at hm
  · simp at hm
  · simp at hm
  · simp at hm
  · simp at hm
  · simp at hm
  · simp at hm
    rcases hm with h | h
    · exact hexDig_ne_cr _ (by omega) h.symm
    · exact hexDig_ne_cr _ (by omega) h.symm
  · simp at hm
    exact h8 (by rw [← hm]; decide)

theorem cr_notin_escStr (s : PyStr) : '\r' ∉ escStr s := by
  induction s with
  | nil => simp [escStr]
  | cons c cs ih =>
    rw [escStr]
    intro hm
    rcases List.mem_append.mp hm with h | h
    · exact cr_notin_escChar c h
    · exact ih h

theorem cr_notin_encodeJString (s : PyStr) : '\r' ∉ encodeJString s := by
  rw [encodeJString]
  intro hm
  simp only [List.mem_cons, List.mem_append, List.mem_singleton] at hm
  rcases hm with (h | h) | h
  · exact absurd h (by decide)
  · exact cr_notin_escStr s h
  · exact absurd h (by decide)

/-- No carriage return in a concatenation of CR-free chunks. -/
theorem cr_notin_concatAll {α : Type} (g : α → List Char) (hg : ∀ y, '\r' ∉ g y) :
    ∀ xs : List α, '\r' ∉ concatAll (xs.map g) := by
  intro xs
  induction xs with
  | nil => simp [concatAll]
  | cons y ys ih =>
    simp only [List.map_cons, concatAll]
    intro hm
    rcases List.mem_append.mp hm with h | h
    · exact hg y h
    · exact ih h

theorem cr_notin_dumpVal (v : JVal) : '\r' ∉ dumpVal v := by
  match v with
  | JVal.jstr s => exact cr_notin_encodeJString s
  | JVal.jarr [] => rw [dumpVal]; decide
  | JVal.jarr (x :: xs) =>
    rw [dumpVal]
    intro hm
    simp only [List.mem_cons, List.mem_append, List.mem_singleton] at hm
    rcases hm with ((h | h) | h) | h
    · exact absurd h (by decide)
    · exact cr_notin_encodeJString x h
    · exact cr_notin_concatAll (fun y => ',' :: ' ' :: encodeJString y)
        (fun y hm2 => by
          simp only [List.mem_cons] at hm2
          rcases hm2 with h2 | h2 | h2
          · exact absurd h2 (by decide)
          · exact absurd h2 (by decide)
          · exact cr_notin_encodeJString y h2) xs h
    · exact absurd h (by decide)

theorem cr_notin_dumpEntry (k : PyStr) (v : JVal) : '\r' ∉ dumpEntry k v := by
  rw [dumpEntry]
  intro hm
  simp only [List.mem_cons, List.mem_append] at hm
  rcases hm with h | h | h | h
  · exact cr_notin_encodeJString k h
  · exact absurd h (by decide)
  · exact absurd h (by decide)
  · exact cr_notin_dumpVal v h

/-- `json.dumps` output never contains a carriage return. -/
theorem cr_notin_jsonDumps (d : JDict) : '\r' ∉ jsonDumps d := by
  match d with
  | [] => rw [jsonDumps]; decide
  | (k, v) :: kvs =>
    rw [jsonDumps]
    intro hm
    simp only [List.mem_cons, List.mem_append, List.mem_singleton] at hm
    rcases hm with ((h | h) | h) | h
    · exact absurd h (by decide)
    · exact cr_notin_dumpEntry k v h
    · exact cr_notin_concatAll (fun kv => ',' :: ' ' :: dumpEntry kv.1 kv.2)
        (fun kv hm2 => by
          simp only [List.mem_cons] at hm2
          rcases hm2 with h2 | h2 | h2
          · exact absurd h2 (by decide)
          · exact absurd h2 (by decide)
          · exact cr_notin_dumpEntry kv.1 kv.2 h2) kvs h
    · exact absurd h (by decide)

-- ### The server (file_server_thread_pool.py, process_client_request)

theorem leadsWith_append_self [DecidableEq α] : ∀ l t : List α, leadsWith l (l ++ t) = true := by
  intro l t
  induction l with
  | nil => rfl
  | cons a as ih => simp [leadsWith, ih]

theorem leadsWith_length [DecidableEq α] :
    ∀ nd l : List α, leadsWith nd l = true → nd.length ≤ l.length := by
  intro nd
  induction nd with
  | nil => intro l _; simp
  | cons n ns ih =>
    intro l h
    match l with
    | [] => cases h
    | x :: xs =>
      simp only [leadsWith, Bool.and_eq_true, decide_eq_true_eq] at h
      have := ih xs h.2
      simp only [List.length_cons]
      omega

theorem leadsWith_append_eq [DecidableEq α] :
    ∀ nd l t : List α, nd.length ≤ l.length → leadsWith nd (l ++ t) = leadsWith nd l := by
  intro nd
  induction nd with
  | nil =>
    intro l t _
    match l with
    | [] => rfl
    | x :: xs => rfl
  | cons n ns ih =>
    intro l t h
    match l with
    | [] => simp at h
    | x :: xs =>
      simp only [List.cons_append, leadsWith, List.append_eq]
      rw [ih xs t (by simp only [List.length_cons] at h; omega)]

/-- A reported first occurrence lies entirely inside the list. -/
theorem findSub_bound [DecidableEq α] (nd : List α) :
    ∀ l i, findSub nd l = some i → i + nd.length ≤ l.length := by
  intro l
  induction l with
  | nil =>
    intro i h
    rw [findSub] at h
    split at h
    · rename_i h0; cases h; simp [h0]
    · cases h
  | cons x xs ih =>
    intro i h
    rw [findSub] at h
    split at h
    · rename_i hl
      cases h
      simpa using leadsWith_length nd _ hl
    · simp only [Option.map_eq_some'] at h
      obtain ⟨j, hj, rfl⟩ := h
      have := ih j hj
      simp only [List.length_cons]
      omega

/-- The first occurrence is stable under appending on the right. -/
theorem findSub_mono [DecidableEq α] (nd : List α) :
    ∀ l t i, findSub nd l = some i → findSub nd (l ++ t) = some i := by
  intro l
  induction l with
  | nil =>
    intro t i h
    rw [findSub] at h
    split at h
    · rename_i h0
      subst h0
      cases h
      rw [List.nil_append, findSub.eq_def]
      match t with
      | [] => simp
      | x :: xs => simp [leadsWith]
    · cases h
  | cons x xs ih =>
    intro t i h
    rw [findSub] at h
    rw [List.cons_append, findSub]
    by_cases hl : leadsWith nd (x :: xs) = true
    · rw [if_pos hl] at h
      rw [show x :: (xs ++ t) = (x :: xs) ++ t from rfl,
        leadsWith_append_eq nd (x :: xs) t (leadsWith_length nd _ hl), if_pos hl]
      exact h
    · rw [if_neg hl] at h
      simp only [Option.map_eq_some'] at h
      obtain ⟨j, hj, rfl⟩ := h
      have hb2 := findSub_bound nd xs j hj
      have heq : leadsWith nd (x :: (xs ++ t)) = leadsWith nd (x :: xs) := by
        rw [show x :: (xs ++ t) = (x :: xs) ++ t from rfl]
        exact leadsWith_append_eq nd (x :: xs) t
          (by simp only [List.length_cons]; omega)
      rw [heq, if_neg hl, ih t j hj]
      rfl

/-- First occurrence of `x :: nd` right after a block not containing `x`. -/
theorem findSub_boundary [DecidableEq α] (x : α) (nd rest : List α) :
    ∀ hay : List α, x ∉ hay →
      findSub (x :: nd) (hay ++ ((x :: nd) ++ rest)) = some hay.length := by
  intro hay
  induction hay with
  | nil =>
    intro _
    rw [List.nil_append, List.cons_append, findSub]
    rw [if_pos (by rw [← List.cons_append]; exact leadsWith_append_self _ _)]
    rfl
  | cons y hay2 ih =>
    intro hx
    have hy : x ≠ y := fun h => hx (by simp [h.symm])
    have hih := ih (fun h => hx (List.mem_cons_of_mem y h))
    rw [List.cons_append, findSub]
    rw [if_neg (show ¬ leadsWith (x :: nd) (y :: (hay2 ++ ((x :: nd) ++ rest))) = true by
      simp [leadsWith, hy])]
    rw [hih]
    rfl

/-- Splitting a list of lists around a prefix. -/
theorem concatAll_append : ∀ a b : List (List α), concatAll (a ++ b) = concatAll a ++ concatAll b := by
  intro a b
  induction a with
  | nil => simp [concatAll]
  | cons x xs ih => simp [concatAll, ih]

/-- Taking within the left part of an append. -/
theorem take_append_left : ∀ (a b : List α) (i : Nat), i ≤ a.length →
    (a ++ b).take i = a.take i := by
  intro a
  induction a with
  | nil =>
    intro b i h
    have hi : i = 0 := by simpa using h
    subst hi
    rfl
  | cons x xs ih =>
    intro b i h
    match i with
    | 0 => rfl
    | j + 1 =>
      simp only [List.cons_append, List.take_succ_cons]
      rw [ih b j (by simpa using h)]

-- ### Split characterization (Python's str.split(' ', 2))

theorem splitOnce_none [DecidableEq α] (sep : α) :
    ∀ s : List α, splitOnce sep s = none → sep ∉ s := by
  intro s
  induction s with
  | nil => intro _ h; cases h
  | cons c cs ih =>
    intro h hm
    rw [splitOnce] at h
    by_cases hc : c = sep
    · rw [if_pos hc] at h; cases h
    · rw [if_neg hc] at h
      rcases List.mem_cons.mp hm with rfl | hm2
      · exact hc rfl
      · rcases hs : splitOnce sep cs with _ | p
        · exact ih hs hm2
        · rw [hs] at h; cases h

theorem splitOnce_some [DecidableEq α] (sep : α) :
    ∀ s a r : List α, splitOnce sep s = some (a, r) →
      s = a ++ sep :: r ∧ sep ∉ a := by
  intro s
  induction s with
  | nil => intro a r h; cases h
  | cons c cs ih =>
    intro a r h
    rw [splitOnce] at h
    by_cases hc : c = sep
    · rw [if_pos hc] at h
      simp only [Option.some.injEq, Prod.mk.injEq] at h
      obtain ⟨h3, h4⟩ := h
      subst h3
      subst h4
      subst hc
      exact ⟨rfl, by simp⟩
    · rw [if_neg hc] at h
      rcases hs : splitOnce sep cs with _ | ⟨a2, r2⟩ <;> rw [hs] at h
      · cases h
      · simp only [Option.map_some', Option.some.injEq, Prod.mk.injEq] at h
        obtain ⟨h3, h4⟩ := h
        subst h3
        subst h4
        obtain ⟨h1, h2⟩ := ih a2 r2 hs
        refine ⟨by rw [h1]; rfl, ?_⟩
        intro hm
        rcases List.mem_cons.mp hm with rfl | hm2
        · exact hc rfl
        · exact h2 hm2

/-- Splitting right at an inserted separator after a separator-free block. -/
theorem splitOnce_append [DecidableEq α] (sep : α) :
    ∀ a b : List α, sep ∉ a → splitOnce sep (a ++ sep :: b) = some (a, b) := by
  intro a
  induction a with
  | nil => intro b _; rw [List.nil_append, splitOnce, if_pos rfl]
  | cons c cs ih =>
    intro b ha
    rw [List.cons_append, splitOnce,
      if_neg (fun h => ha (by simp [h])), ih b (fun h => ha (List.mem_cons_of_mem c h))]
    rfl

/-- Python's `split(' ', 2)` yields at most three fields, joining them with
single spaces restores the original header, and no field before the last
contains a space. -/
theorem pySplit2_spec (s : PyStr) :
    (pySplit2 s).length ≤ 3
    ∧ List.intercalate [' '] (pySplit2 s) = s
    ∧ ∀ p ∈ (pySplit2 s).dropLast, ' ' ∉ p := by
  rw [pySplit2]
  rcases h1 : splitOnce ' ' s with _ | ⟨a, r⟩ <;> simp only [h1]
  · refine ⟨by simp, by simp [List.intercalate], by simp⟩
  · obtain ⟨hs1, hs2⟩ := splitOnce_some ' ' s a r h1
    rcases h2 : splitOnce ' ' r with _ | ⟨b, r2⟩ <;> simp only [h2]
    · refine ⟨by simp, ?_, ?_⟩
      · simp [List.intercalate, hs1]
      · intro p hp
        simp at hp
        subst hp
        exact hs2
    · obtain ⟨hr1, hr2⟩ := splitOnce_some ' ' r b r2 h2
      refine ⟨by simp, ?_, ?_⟩
      · simp [List.intercalate, hs1, hr1]
      · intro p hp
        simp at hp
        rcases hp with rfl | rfl
        · exact hs2
        · exact hr2

-- ### UTF-8 lemmas

/-- With enough fuel, ASCII bytes decode one character per byte. -/
theorem utf8DecodeF_ascii :
    ∀ (bs : List Nat) (fuel : Nat), bs.length ≤ fuel → (∀ b ∈ bs, b < 128) →
      utf8DecodeF fuel bs = some (bs.map Char.ofNat) := by
  intro bs
  induction bs with
  | nil => intro fuel _ _; rw [utf8DecodeF.eq_def]; split <;> simp_all
  | cons b rest ih =>
    intro fuel hlen h
    obtain ⟨f, rfl⟩ : ∃ f, fuel = f + 1 :=
      ⟨fuel - 1, by simp only [List.length_cons] at hlen; omega⟩
    rw [utf8DecodeF]
    rw [show utf8DecodeOne (b :: rest) = some (Char.ofNat b, rest) from by
      rw [utf8DecodeOne.eq_def]
      simp [h b (by simp)]]
    simp [ih f (by simp only [List.length_cons] at hlen; omega)
      (fun x hx => h x (by simp [hx]))]

/-- On pure ASCII bytes, UTF-8 decoding is one character per byte. -/
theorem utf8Decode_ascii :
    ∀ bs : List Nat, (∀ b ∈ bs, b < 128) → utf8Decode bs = some (bs.map Char.ofNat) := by
  intro bs h
  exact utf8DecodeF_ascii bs bs.length (Nat.le_refl _) h

/-- Encoding ASCII text and decoding it restores the text. -/
theorem utf8Decode_encodeAscii (s : PyStr) (h : ∀ c ∈ s, c.toNat < 128) :
    utf8Decode (encodeAscii s) = some s := by
  rw [encodeAscii, utf8Decode_ascii _ (by
    intro b hb
    simp only [List.mem_map] at hb
    obtain ⟨c, hc, rfl⟩ := hb
    exact h c hc)]
  rw [List.map_map]
  have hcongr : List.map (Char.ofNat ∘ Char.toNat) s = List.map id s := by
    apply List.map_congr_left
    intro a _
    exact Char.ofNat_toNat a
  rw [hcongr, List.map_id]

/-- A successful decode of a nonempty byte list is a nonempty string. -/
theorem utf8Decode_some_nil : ∀ bs, utf8Decode bs = some [] → bs = [] := by
  intro bs h
  match bs with
  | [] => rfl
  | b :: rest =>
    rw [utf8Decode, List.length_cons, utf8DecodeF] at h
    rcases ho : utf8DecodeOne (b :: rest) with _ | ⟨cc, rest2⟩ <;> rw [ho] at h
    · cases h
    · simp at h

-- ### The receive loop

/-- A frame reported by the receive loop carries the first delimiter
occurrence inside its buffer. -/
theorem recvLoop_frame_findSub :
    ∀ (events : List RecvEvent) (buffer buf : List Nat) (i : Nat),
      recvLoop buffer events = FrameResult.frame buf i →
      findSub delimBytes buf = some i := by
  intro events
  induction events with
  | nil => intro buffer buf i h; cases h
  | cons e rest ih =>
    intro buffer buf i h
    match e with
    | RecvEvent.timeout => rw [recvLoop] at h; cases h
    | RecvEvent.data d =>
      rw [recvLoop] at h
      by_cases hd : d = []
      · rw [if_pos hd] at h; cases h
      · rw [if_neg hd] at h
        rcases hf : findSub delimBytes (buffer ++ d) with _ | j <;> rw [hf] at h
        · exact ih _ _ _ h
        · cases h; exact hf

/-- Chunking-independence of the framing loop: however the byte stream is
chunked (with nonempty chunks), if the delimiter occurs in the stream then
the loop stops at the first chunk completing an occurrence, the buffer is
exactly the chunks consumed so far, and the reported index is the first
occurrence in the whole stream. -/
theorem recvLoop_frames :
    ∀ (chunks : List (List Nat)) (buffer : List Nat),
      (∀ c ∈ chunks, c ≠ []) →
      findSub delimBytes buffer = none →
      (findSub delimBytes (buffer ++ concatAll chunks)).isSome = true →
      ∃ k i, recvLoop buffer (chunks.map RecvEvent.data) =
          FrameResult.frame (buffer ++ concatAll (chunks.take k)) i
        ∧ findSub delimBytes (buffer ++ concatAll (chunks.take k)) = some i
        ∧ findSub delimBytes (buffer ++ concatAll chunks) = some i := by
  intro chunks
  induction chunks with
  | nil =>
    intro buffer _ hnone hocc
    rw [show concatAll ([] : List (List Nat)) = [] from rfl, List.append_nil, hnone] at hocc
    cases hocc
  | cons c rest ih =>
    intro buffer hne hnone hocc
    have hc : c ≠ [] := hne c (by simp)
    rcases hf : findSub delimBytes (buffer ++ c) with _ | j
    · have hstep : recvLoop buffer ((c :: rest).map RecvEvent.data)
          = recvLoop (buffer ++ c) (rest.map RecvEvent.data) := by
        rw [List.map_cons, recvLoop, if_neg hc, hf]
      have hocc2 : (findSub delimBytes ((buffer ++ c) ++ concatAll rest)).isSome = true := by
        rw [List.append_assoc]
        rw [show concatAll (c :: rest) = c ++ concatAll rest from rfl] at hocc
        exact hocc
      obtain ⟨k, i, h1, h2, h3⟩ := ih (buffer ++ c)
        (fun x hx => hne x (by simp [hx])) hf hocc2
      refine ⟨k + 1, i, ?_, ?_, ?_⟩
      · rw [hstep, h1]
        rw [show concatAll ((c :: rest).take (k + 1)) = c ++ concatAll (rest.take k) from rfl,
          ← List.append_assoc]
      · rw [show concatAll ((c :: rest).take (k + 1)) = c ++ concatAll (rest.take k) from rfl,
          ← List.append_assoc]
        exact h2
      · rw [show concatAll (c :: rest) = c ++ concatAll rest from rfl, ← List.append_assoc]
        exact h3
    · refine ⟨1, j, ?_, ?_, ?_⟩
      · rw [List.map_cons, recvLoop, if_neg hc, hf]
        rw [show concatAll ((c :: rest).take 1) = c ++ concatAll ([] : List (List Nat)) from rfl]
        rw [show concatAll ([] : List (List Nat)) = [] from rfl, List.append_nil]
      · rw [show concatAll ((c :: rest).take 1) = c ++ concatAll ([] : List (List Nat)) from rfl]
        rw [show concatAll ([] : List (List Nat)) = [] from rfl, List.append_nil]
        exact hf
      · rw [show concatAll (c :: rest) = c ++ concatAll rest from rfl, ← List.append_assoc]
        exact findSub_mono delimBytes (buffer ++ c) (concatAll rest) j hf

-- ### Claim theorems

/-- C1: the spec claims that on an empty header (bare `\r\n\r\n`) or a
disconnect before any data, the server closes the connection without
sending a response.  The code indeed sends nothing, but on both paths the
`finally` block evaluates `json.dumps(hasil_dict)` with `hasil_dict` never
assigned (it is first assigned on line 53, after the early `return`s of
lines 34 and 46), raising `UnboundLocalError`, which skips
`connection.close()` on line 101 and escapes the handler — contradicting
the code's own log messages "Closing connection.". -/
theorem c1_empty_header_unbound_local :
    processClientRequest specIntf [] [RecvEvent.data [13, 10, 13, 10]] true
      = some ({ sent := none, closed := false, raised := true }, [], [])
    ∧ processClientRequest specIntf [] [RecvEvent.data []] true
      = some ({ sent := none, closed := false, raised := true }, [], []) := by
  exact ⟨by decide, by decide⟩

/-- C7: the command token is uppercased before matching, and any command
outside {LIST, GET, UPLOAD, DELETE} yields an ERROR response whose data
names the (uppercased) command; no store operation runs and the request is
never silently ignored. -/
theorem c7_unknown_command {σ : Type} (intf : FileIntf σ) (st : σ)
    (header : PyStr) (body : List Nat)
    (hunk : pyUpper ((pySplit2 header).headD []) ∉
      ["LIST".toList, "GET".toList, "UPLOAD".toList, "DELETE".toList]) :
    dispatchCommand intf st header body
      = (errDict ("Unknown command: ".toList ++ pyUpper ((pySplit2 header).headD [])),
        st, []) := by
  simp only [List.mem_cons, List.not_mem_nil, or_false, not_or] at hunk
  obtain ⟨hL, hG, hU, hD⟩ := hunk
  simp only [dispatchCommand, if_neg hU, if_neg hL, if_neg hG, if_neg hD]

/-- Witness for C7 at the concrete header `"foo bar"`. -/
theorem c7_unknown_command_witness :
    dispatchCommand specIntf [] "foo bar".toList []
      = (errDict ("Unknown command: ".toList ++ pyUpper ((pySplit2 "foo bar".toList).headD [])),
        [], []) :=
  c7_unknown_command specIntf [] "foo bar".toList [] (by decide)

/-- C8: when the read loop stops with a socket timeout (the 120-second idle
timeout of line 27), the handler converts it into an ERROR response that is
sent if the connection is still writable (`sendOk`), otherwise the
connection is closed without a response. -/
theorem c8_timeout_error {σ : Type} (intf : FileIntf σ) (st : σ)
    (events : List RecvEvent) (sendOk : Bool)
    (ht : recvLoop [] events = FrameResult.timedOut) :
    processClientRequest intf st events sendOk
      = some (finishSend (errDict "Server receive timeout.".toList) sendOk, st, [])
    ∧ connectionTimeoutSeconds = 120 := by
  constructor
  · simp only [processClientRequest, ht]
  · rfl

/-- Witness for C8 at a trace whose first event is a timeout, with
`sendOk = false` (connection no longer writable: silently dropped). -/
theorem c8_timeout_error_witness :
    processClientRequest specIntf [] [RecvEvent.timeout] false
      = some (finishSend (errDict "Server receive timeout.".toList) false, [], [])
    ∧ connectionTimeoutSeconds = 120 :=
  c8_timeout_error specIntf [] [RecvEvent.timeout] false (by decide)

/-- C9: an UPLOAD whose header has no filename token (the header is the
single field `UPLOAD` after splitting) produces the ERROR response
`Filename missing for UPLOAD.` and invokes no store operation at all. -/
theorem c9_upload_missing_filename {σ : Type} (intf : FileIntf σ) (st : σ)
    (header : PyStr) (body : List Nat) (w : PyStr)
    (hsplit : pySplit2 header = [w]) (hcmd : pyUpper w = "UPLOAD".toList) :
    dispatchCommand intf st header body
      = (errDict "Filename missing for UPLOAD.".toList, st, []) := by
  simp [dispatchCommand, hsplit, hcmd]

/-- Witness for C9 at the concrete header `"upload"` (lowercase, matched
after uppercasing). -/
theorem c9_upload_missing_filename_witness :
    dispatchCommand specIntf [] "upload".toList []
      = (errDict "Filename missing for UPLOAD.".toList, [], []) :=
  c9_upload_missing_filename specIntf [] "upload".toList [] "upload".toList
    (by decide) (by decide)

/-- The accept loop itself never closes the listening socket. -/
theorem acceptLoop_no_close : ∀ steps, SEvent.closeListen ∉ acceptLoop steps := by
  intro steps
  induction steps with
  | nil => simp [acceptLoop]
  | cons s rest ih =>
    rw [acceptLoop]
    by_cases hf : s.flagAtLoop
    · simp [hf]
    · rw [if_neg hf]
      match hres : s.res with
      | AcceptRes.conn id =>
        intro hm
        rcases List.mem_cons.mp hm with h | h
        · cases h
        · by_cases hs : s.flagAtSubmit
          · rw [if_pos hs] at h
            rcases List.mem_cons.mp h with h2 | h2
            · cases h2
            · exact ih h2
          · rw [if_neg hs] at h
            rcases List.mem_cons.mp h with h2 | h2
            · cases h2
            · exact ih h2
      | AcceptRes.timeoutA => exact ih
      | AcceptRes.errA => simp

/-- The accept loop never waits for the executor. -/
theorem acceptLoop_no_wait : ∀ steps, SEvent.waitTasks ∉ acceptLoop steps := by
  intro steps
  induction steps with
  | nil => simp [acceptLoop]
  | cons s rest ih =>
    rw [acceptLoop]
    by_cases hf : s.flagAtLoop
    · simp [hf]
    · rw [if_neg hf]
      match hres : s.res with
      | AcceptRes.conn id =>
        intro hm
        rcases List.mem_cons.mp hm with h | h
        · cases h
        · by_cases hs : s.flagAtSubmit
          · rw [if_pos hs] at h
            rcases List.mem_cons.mp h with h2 | h2
            · cases h2
            · exact ih h2
          · rw [if_neg hs] at h
            rcases List.mem_cons.mp h with h2 | h2
            · cases h2
            · exact ih h2
      | AcceptRes.timeoutA => exact ih
      | AcceptRes.errA => simp

/-- Every submission in the accept loop comes from a step whose shutdown
flag was still clear at the inner check. -/
theorem acceptLoop_submitted :
    ∀ steps id, SEvent.submitted id ∈ acceptLoop steps →
      ∃ s ∈ steps, s.res = AcceptRes.conn id ∧ s.flagAtSubmit = false := by
  intro steps
  induction steps with
  | nil => intro id h; simp [acceptLoop] at h
  | cons s rest ih =>
    intro id h
    rw [acceptLoop] at h
    by_cases hf : s.flagAtLoop
    · rw [if_pos hf] at h; cases h
    · rw [if_neg hf] at h
      match hres : s.res with
      | AcceptRes.conn id2 =>
        rw [hres] at h
        rcases List.mem_cons.mp h with h2 | h2
        · cases h2
        · by_cases hs : s.flagAtSubmit
          · rw [if_pos hs] at h2
            rcases List.mem_cons.mp h2 with h3 | h3
            · cases h3
            · obtain ⟨s2, hs2, hr2, hfl2⟩ := ih id h3
              exact ⟨s2, List.mem_cons_of_mem s hs2, hr2, hfl2⟩
          · rw [if_neg hs] at h2
            rcases List.mem_cons.mp h2 with h3 | h3
            · cases h3
              exact ⟨s, by simp, hres, Bool.not_eq_true _ ▸ (by simpa using hs)⟩
            · obtain ⟨s2, hs2, hr2, hfl2⟩ := ih id h3
              exact ⟨s2, List.mem_cons_of_mem s hs2, hr2, hfl2⟩
      | AcceptRes.timeoutA =>
        rw [hres] at h
        obtain ⟨s2, hs2, hr2, hfl2⟩ := ih id h
        exact ⟨s2, List.mem_cons_of_mem s hs2, hr2, hfl2⟩
      | AcceptRes.errA => rw [hres] at h; cases h

/-- C2 counterexample: a run that accepts and submits one connection and
then observes the shutdown flag.  The trace closes the listening socket
(line 141) before `executor.shutdown(wait=True)` (line 142), so the claimed
wait-for-tasks-then-close ordering is false. -/
theorem c2_close_before_wait_counterexample :
    waitBeforeClose (serverRun
      [⟨false, AcceptRes.conn 0, false⟩, ⟨true, AcceptRes.timeoutA, false⟩]) = false
    ∧ serverRun [⟨false, AcceptRes.conn 0, false⟩, ⟨true, AcceptRes.timeoutA, false⟩]
      = [SEvent.accepted 0, SEvent.submitted 0, SEvent.closeListen, SEvent.waitTasks] := by
  exact ⟨by decide, by decide⟩

/-- C2 (amended): on shutdown the server stops accepting, then closes the
listening socket, and only after that waits for queued and running tasks
(the close precedes the wait, the reverse of the claimed order); and every
connection accepted after the shutdown flag is set is closed immediately
and never submitted to the pool. -/
theorem c2_shutdown_order_amended (steps : List LoopStep) :
    (∃ t, serverRun steps = t ++ [SEvent.closeListen, SEvent.waitTasks]
      ∧ SEvent.closeListen ∉ t ∧ SEvent.waitTasks ∉ t)
    ∧ (∀ id, SEvent.submitted id ∈ serverRun steps →
        ∃ s ∈ steps, s.res = AcceptRes.conn id ∧ s.flagAtSubmit = false) := by
  constructor
  · exact ⟨acceptLoop steps, rfl, acceptLoop_no_close steps, acceptLoop_no_wait steps⟩
  · intro id h
    rw [serverRun] at h
    rcases List.mem_append.mp h with h2 | h2
    · exact acceptLoop_submitted steps id h2
    · simp at h2

/-- Witness for the amended C2 at the counterexample schedule. -/
theorem c2_shutdown_order_amended_witness :
    (∃ t, serverRun [⟨false, AcceptRes.conn 0, false⟩, ⟨true, AcceptRes.timeoutA, false⟩]
        = t ++ [SEvent.closeListen, SEvent.waitTasks]
      ∧ SEvent.closeListen ∉ t ∧ SEvent.waitTasks ∉ t)
    ∧ (∀ id, SEvent.submitted id
          ∈ serverRun [⟨false, AcceptRes.conn 0, false⟩, ⟨true, AcceptRes.timeoutA, false⟩] →
        ∃ s ∈ [(⟨false, AcceptRes.conn 0, false⟩ : LoopStep),
            ⟨true, AcceptRes.timeoutA, false⟩],
          s.res = AcceptRes.conn id ∧ s.flagAtSubmit = false) :=
  c2_shutdown_order_amended [⟨false, AcceptRes.conn 0, false⟩, ⟨true, AcceptRes.timeoutA, false⟩]

/-- C6: totality of the per-connection handler.  Whenever a request frame
was received (nonempty header) or the read timed out, the handler produces
a normal finish — response computed, sent when the connection is writable,
`connection.close()` reached, no exception escaping — for every behaviour
of the `FileInterface` collaborator, including any exception any of its
operations raises, and for every header/body decoding failure. -/
theorem c6_errors_contained {σ : Type} (intf : FileIntf σ) (st : σ)
    (events : List RecvEvent) (sendOk : Bool)
    (hdisp : recvLoop [] events = FrameResult.timedOut
      ∨ ∃ buf i, recvLoop [] events = FrameResult.frame buf i ∧ i ≠ 0) :
    ∃ d st2 effs, processClientRequest intf st events sendOk
      = some (finishSend d sendOk, st2, effs) := by
  rcases hdisp with ht | ⟨buf, i, hf, hi⟩
  · exact ⟨errDict "Server receive timeout.".toList, st, [], by
      simp only [processClientRequest, ht]⟩
  · have hfs := recvLoop_frame_findSub events [] buf i hf
    have hbound := findSub_bound delimBytes buf i hfs
    have hbufne : buf ≠ [] := by
      intro hnil
      rw [hnil] at hbound
      simp [delimBytes] at hbound
    rcases hd : utf8Decode (frameHeaderBytes buf i) with _ | header
    · exact ⟨errDict ("Server internal error: ".toList ++ unicodeDecodeErrText), st, [], by
        simp only [processClientRequest, hf, hd]⟩
    · have hne : header ≠ [] := by
        intro hnil
        rw [hnil] at hd
        have h0 := utf8Decode_some_nil _ hd
        rw [frameHeaderBytes] at h0
        rcases buf with _ | ⟨b, bs⟩
        · exact hbufne rfl
        · rcases i with _ | j
          · exact hi rfl
          · rw [List.take_succ_cons] at h0
            cases h0
      refine ⟨(dispatchCommand intf st header (frameBodyBytes buf i)).1,
        (dispatchCommand intf st header (frameBodyBytes buf i)).2.1,
        (dispatchCommand intf st header (frameBodyBytes buf i)).2.2, ?_⟩
      simp only [processClientRequest, hf, hd, if_neg hne]

/-- Witness for C6 at a concrete `LIST` request against the spec-modelled
store. -/
theorem c6_errors_contained_witness :
    ∃ d st2 effs,
      processClientRequest specIntf []
          [RecvEvent.data (encodeAscii "LIST".toList ++ delimBytes)] true
        = some (finishSend d true, st2, effs) :=
  c6_errors_contained specIntf []
    [RecvEvent.data (encodeAscii "LIST".toList ++ delimBytes)] true
    (Or.inr ⟨encodeAscii "LIST".toList ++ delimBytes, 4, by decide, by decide⟩)

/-- C3: a GET, UPLOAD or DELETE request whose filename contains a path
separator or a `..` traversal sequence is rejected with an ERROR response
and leaves the store untouched, so no operation reaches a path outside the
store root.  The sanitization lives in the spec-modelled `FileInterface`
(`sanitizeOk`); the server dispatch passes filenames through unchanged. -/
theorem c3_traversal_rejected (st : Store) (header : PyStr) (body : List Nat)
    (name : PyStr) (restParams : List PyStr)
    (hcmd : pyUpper ((pySplit2 header).headD []) = "GET".toList
      ∨ pyUpper ((pySplit2 header).headD []) = "UPLOAD".toList
      ∨ pyUpper ((pySplit2 header).headD []) = "DELETE".toList)
    (hparams : (pySplit2 header).tail = name :: restParams)
    (hbad : sanitizeOk name = false) :
    ∃ msg effs, dispatchCommand specIntf st header body = (errDict msg, st, effs) := by
  rcases hcmd with hc | hc | hc
  · refine ⟨"file not found".toList, [Effect.getOp (name :: restParams)], ?_⟩
    simp only [dispatchCommand, hc, hparams]
    simp [specIntf, specGet, hbad]
  · rcases hdec : utf8Decode body with _ | contentB64
    · refine ⟨"Failed to decode file content.".toList, [], ?_⟩
      simp only [dispatchCommand, hc, hparams]
      simp [hdec]
    · refine ⟨"invalid filename".toList, [Effect.uploadOp name contentB64], ?_⟩
      simp only [dispatchCommand, hc, hparams]
      simp [hdec, specIntf, specUpload, hbad]
  · refine ⟨"file not found".toList, [Effect.deleteOp (name :: restParams)], ?_⟩
    simp only [dispatchCommand, hc, hparams]
    simp [specIntf, specDelete, hbad]

/-- Witness for C3 at the concrete request `GET ../secret`. -/
theorem c3_traversal_rejected_witness :
    ∃ msg effs, dispatchCommand specIntf [] "GET ../secret".toList []
      = (errDict msg, [], effs) :=
  c3_traversal_rejected [] "GET ../secret".toList [] "../secret".toList []
    (Or.inl (by decide)) (by decide) (by decide)

/-- C4: request framing and parsing.  For every chunking of the byte stream
(nonempty chunks) in which `\r\n\r\n` occurs, the receive loop stops with a
buffer equal to exactly the chunks consumed so far, the reported separator
position is the first occurrence of the delimiter in the whole stream, the
header bytes are exactly the stream bytes before that occurrence (decoded
as text by `processClientRequest` via `utf8Decode`), and the body is
exactly the already-buffered bytes after the delimiter.  Additionally the
decoded header is split on the first two spaces into at most three fields,
whose space-joined concatenation restores the header and of which only the
last may contain a space. -/
theorem c4_framing_and_split (chunks : List (List Nat))
    (hne : ∀ c ∈ chunks, c ≠ [])
    (hocc : (findSub delimBytes (concatAll chunks)).isSome = true) :
    (∃ k i, recvLoop [] (chunks.map RecvEvent.data)
        = FrameResult.frame (concatAll (chunks.take k)) i
      ∧ findSub delimBytes (concatAll chunks) = some i
      ∧ frameHeaderBytes (concatAll (chunks.take k)) i = (concatAll chunks).take i
      ∧ frameBodyBytes (concatAll (chunks.take k)) i
          = (concatAll (chunks.take k)).drop (i + 4))
    ∧ ∀ hdr : PyStr, (pySplit2 hdr).length ≤ 3
        ∧ List.intercalate [' '] (pySplit2 hdr) = hdr
        ∧ ∀ p ∈ (pySplit2 hdr).dropLast, ' ' ∉ p := by
  constructor
  · have h0 : findSub delimBytes ([] : List Nat) = none := by decide
    have hocc2 : (findSub delimBytes ([] ++ concatAll chunks)).isSome = true := by
      rw [List.nil_append]; exact hocc
    obtain ⟨k, i, h1, h2, h3⟩ := recvLoop_frames chunks [] hne h0 hocc2
    rw [List.nil_append] at h1 h2 h3
    refine ⟨k, i, h1, h3, ?_, rfl⟩
    rw [frameHeaderBytes]
    have hbound := findSub_bound delimBytes (concatAll (chunks.take k)) i h2
    have hsplitc : concatAll chunks
        = concatAll (chunks.take k) ++ concatAll (chunks.drop k) := by
      rw [← concatAll_append, List.take_append_drop]
    rw [hsplitc, take_append_left _ _ i (by
      simp only [delimBytes, List.length_cons, List.length_nil] at hbound
      omega)]
  · intro hdr
    exact pySplit2_spec hdr

/-- Witness for C4: the request `GET a\r\n\r\nBODY` delivered in two
chunks that split the delimiter. -/
theorem c4_framing_and_split_witness :
    (∃ k i, recvLoop []
          ([[71, 69, 84, 32, 97, 13, 10], [13, 10, 66, 79]].map RecvEvent.data)
        = FrameResult.frame
            (concatAll ([[71, 69, 84, 32, 97, 13, 10], [13, 10, 66, 79]].take k)) i
      ∧ findSub delimBytes (concatAll [[71, 69, 84, 32, 97, 13, 10], [13, 10, 66, 79]])
          = some i
      ∧ frameHeaderBytes (concatAll ([[71, 69, 84, 32, 97, 13, 10], [13, 10, 66, 79]].take k)) i
          = (concatAll [[71, 69, 84, 32, 97, 13, 10], [13, 10, 66, 79]]).take i
      ∧ frameBodyBytes (concatAll ([[71, 69, 84, 32, 97, 13, 10], [13, 10, 66, 79]].take k)) i
          = (concatAll ([[71, 69, 84, 32, 97, 13, 10], [13, 10, 66, 79]].take k)).drop (i + 4))
    ∧ ∀ hdr : PyStr, (pySplit2 hdr).length ≤ 3
        ∧ List.intercalate [' '] (pySplit2 hdr) = hdr
        ∧ ∀ p ∈ (pySplit2 hdr).dropLast, ' ' ∉ p :=
  c4_framing_and_split [[71, 69, 84, 32, 97, 13, 10], [13, 10, 66, 79]]
    (by decide) (by decide)

/-- C10: protocol round-trip.  Serializing any response dictionary as the
server does (`json.dumps` plus the `\r\n\r\n` terminator) and parsing it
back as the client does (split on the first `\r\n\r\n`, JSON-decode the
part before it) reproduces the structured fields exactly; and
base64-carried binary content decodes back to the original bytes. -/
theorem c10_response_roundtrip :
    (∀ d : JDict, clientParse (serializeResponse d) = some d)
    ∧ ∀ bs : List Nat, (∀ b ∈ bs, b < 256) → b64decode (b64encode bs) = some bs := by
  constructor
  · intro d
    have hcr := cr_notin_jsonDumps d
    have hb : findSub delimStr (jsonDumps d ++ delimStr) = some (jsonDumps d).length := by
      rw [show jsonDumps d ++ delimStr
          = jsonDumps d ++ (('\r' :: ['\n', '\r', '\n']) ++ []) from by
        simp [delimStr]]
      exact findSub_boundary '\r' ['\n', '\r', '\n'] [] (jsonDumps d) hcr
    rw [serializeResponse, clientParse, pySplitFirst, hb]
    show jsonLoads (List.take (jsonDumps d).length (jsonDumps d ++ delimStr)) = some d
    rw [take_append_left _ _ _ (Nat.le_refl _), List.take_length]
    exact jsonLoads_jsonDumps d
  · exact b64decode_b64encode

/-- Witness for C10's base64 leg at concrete bytes (the structural leg has
no hypothesis). -/
theorem c10_response_roundtrip_witness :
    b64decode (b64encode [104, 105, 0, 255]) = some [104, 105, 0, 255] :=
  c10_response_roundtrip.2 [104, 105, 0, 255] (by decide)

/-- C5: an UPLOAD whose base64 payload sits inline in the header after the
filename — the exact form `file_client_cli.py`'s `remote_upload` sends
(`UPLOAD name <base64>\r\n\r\n`) — is parsed into three header fields; the
server passes only the bytes after the delimiter (here: none) to the
store's upload, ignoring the inline payload token entirely, so the stored
payload is empty.  Storage behaviour is the spec-modelled `FileInterface`. -/
theorem c5_inline_payload_ignored (name payload : PyStr) (st : Store) (sendOk : Bool)
    (h2 : ' ' ∉ name)
    (h3 : ∀ c ∈ name, c.toNat < 128) (h4 : '\r' ∉ name)
    (h5 : ∀ c ∈ payload, c.toNat < 128) (h6 : '\r' ∉ payload)
    (h7 : sanitizeOk name = true) :
    processClientRequest specIntf st
        [RecvEvent.data
          (encodeAscii ("UPLOAD ".toList ++ name ++ ' ' :: payload) ++ delimBytes)]
        sendOk
      = some (finishSend
          [("status".toList, JVal.jstr "OK".toList),
           ("data".toList, JVal.jstr "upload success".toList)] sendOk,
        storeInsert name [] st, [Effect.uploadOp name []]) := by
  have hall : ∀ c ∈ "UPLOAD ".toList ++ name ++ ' ' :: payload, c.toNat < 128 := by
    intro c hc
    rcases List.mem_append.mp hc with hc2 | hc2
    · rcases List.mem_append.mp hc2 with hc3 | hc3
      · exact (by decide : ∀ x ∈ "UPLOAD ".toList, x.toNat < 128) c hc3
      · exact h3 c hc3
    · rcases List.mem_cons.mp hc2 with rfl | hc3
      · decide
      · exact h5 c hc3
  have hnocr : (13 : Nat) ∉ encodeAscii ("UPLOAD ".toList ++ name ++ ' ' :: payload) := by
    intro hm
    rw [encodeAscii] at hm
    obtain ⟨c, hc, hct⟩ := List.mem_map.mp hm
    have hcr : c = '\r' := by
      rw [← Char.ofNat_toNat c, hct]
    subst hcr
    rcases List.mem_append.mp hc with hc2 | hc2
    · rcases List.mem_append.mp hc2 with hc3 | hc3
      · exact absurd hc3 (by decide)
      · exact h4 hc3
    · rcases List.mem_cons.mp hc2 with heq | hc3
      · exact absurd heq (by decide)
      · exact h6 hc3
  have hfind : findSub delimBytes
      (encodeAscii ("UPLOAD ".toList ++ name ++ ' ' :: payload) ++ delimBytes)
      = some (encodeAscii ("UPLOAD ".toList ++ name ++ ' ' :: payload)).length := by
    rw [show encodeAscii ("UPLOAD ".toList ++ name ++ ' ' :: payload) ++ delimBytes
        = encodeAscii ("UPLOAD ".toList ++ name ++ ' ' :: payload)
          ++ ((13 :: [10, 13, 10]) ++ []) from by simp [delimBytes]]
    exact findSub_boundary 13 [10, 13, 10] []
      (encodeAscii ("UPLOAD ".toList ++ name ++ ' ' :: payload)) hnocr
  have hwne : encodeAscii ("UPLOAD ".toList ++ name ++ ' ' :: payload) ++ delimBytes
      ≠ [] := by
    intro h
    have := congrArg List.length h
    simp [delimBytes] at this
  have hstep : recvLoop []
      [RecvEvent.data (encodeAscii ("UPLOAD ".toList ++ name ++ ' ' :: payload) ++ delimBytes)]
      = FrameResult.frame
          (encodeAscii ("UPLOAD ".toList ++ name ++ ' ' :: payload) ++ delimBytes)
          (encodeAscii ("UPLOAD ".toList ++ name ++ ' ' :: payload)).length := by
    rw [recvLoop, if_neg hwne]
    simp only [List.nil_append, hfind]
  have hhead : frameHeaderBytes
      (encodeAscii ("UPLOAD ".toList ++ name ++ ' ' :: payload) ++ delimBytes)
      (encodeAscii ("UPLOAD ".toList ++ name ++ ' ' :: payload)).length
      = encodeAscii ("UPLOAD ".toList ++ name ++ ' ' :: payload) := by
    rw [frameHeaderBytes, take_append_left _ _ _ (Nat.le_refl _), List.take_length]
  have hbody : frameBodyBytes
      (encodeAscii ("UPLOAD ".toList ++ name ++ ' ' :: payload) ++ delimBytes)
      (encodeAscii ("UPLOAD ".toList ++ name ++ ' ' :: payload)).length = [] := by
    rw [frameBodyBytes]
    rw [show (encodeAscii ("UPLOAD ".toList ++ name ++ ' ' :: payload)).length + 4
        = (encodeAscii ("UPLOAD ".toList ++ name ++ ' ' :: payload) ++ delimBytes).length
      from by simp [delimBytes]]
    exact List.drop_length _
  have hdec := utf8Decode_encodeAscii ("UPLOAD ".toList ++ name ++ ' ' :: payload) hall
  have hHne : "UPLOAD ".toList ++ name ++ ' ' :: payload ≠ [] := by simp
  have hs1 := splitOnce_append ' ' "UPLOAD".toList (name ++ ' ' :: payload) (by decide)
  have hsplit : pySplit2 ("UPLOAD ".toList ++ name ++ ' ' :: payload)
      = ["UPLOAD".toList, name, payload] := by
    rw [show "UPLOAD ".toList ++ name ++ ' ' :: payload
        = "UPLOAD".toList ++ ' ' :: (name ++ ' ' :: payload) from by
      rw [show "UPLOAD ".toList = "UPLOAD".toList ++ [' '] from by decide]
      simp [List.append_assoc]]
    rw [pySplit2, hs1]
    simp only [splitOnce_append ' ' name payload h2]
  have hup : pyUpper "UPLOAD".toList = "UPLOAD".toList := by decide
  simp only [processClientRequest, hstep, hhead, hdec, hbody, if_neg hHne]
  simp only [dispatchCommand, hsplit, List.headD, List.tail, hup, if_pos rfl,
    show utf8Decode [] = some [] from rfl]
  simp only [specIntf, specUpload, if_pos h7, show b64decode [] = some [] from rfl]
  simp

/-- Witness for C5: `UPLOAD a.txt aGk=` with empty framed body against the
empty store. -/
theorem c5_inline_payload_ignored_witness :
    processClientRequest specIntf [] [RecvEvent.data
        (encodeAscii ("UPLOAD ".toList ++ "a.txt".toList ++ ' ' :: "aGk=".toList)
          ++ delimBytes)] true
      = some (finishSend
          [("status".toList, JVal.jstr "OK".toList),
           ("data".toList, JVal.jstr "upload success".toList)] true,
        storeInsert "a.txt".toList [] [], [Effect.uploadOp "a.txt".toList []]) :=
  c5_inline_payload_ignored "a.txt".toList "aGk=".toList [] true
    (by decide) (by decide) (by decide) (by decide) (by decide) (by decide)
